import Mathlib

/-!
Shallow embedding of the aggregation-and-ranking engine of the
msf-pal-alliance-report-generator repository (src/main.go).

Cells of the output table are Go interface values holding either a
string or an int; we embed them as an explicit sum type.  Go slices of
cells become Lean lists, Go int becomes Int (overflow is irrelevant at
the magnitudes involved: summed character powers), and the fallible
26-entry column-letter lookup becomes an Option.  The call
sort.Sort(ByAverageTotalTeamPower(cellValues)) is modelled by insertion
sort with the exact Less comparator of the source; insertion sort is
the algorithm the Go standard library itself runs on short slices, and
every theorem below that involves the sort depends only on the
documented postcondition of sort.Sort (the result is a permutation of
the input that is ordered by the comparator), not on tie-breaking
behaviour, which sort.Sort does not guarantee.
-/

/-- A spreadsheet cell value: the Go code stores strings and ints in
cellValues through the empty interface. -/
inductive Cell where
  | str : String → Cell
  | int : Int → Cell
deriving DecidableEq

/-- A row of the report table. -/
abbrev Row := List Cell

/-- The trailing cell of a row read as an integer, mirroring the type
assertion a[i][len(a[i])-1].(int) in the comparator: some n when the
last cell holds an int, none otherwise.  Rows are never empty at any
call site in the source. -/
def trailingInt (r : Row) : Option Int :=
  match r.getLast? with
  | some (Cell.int n) => some n
  | _ => none

namespace ByAverageTotalTeamPower

/-- Embeds (ByAverageTotalTeamPower).Less from src/main.go lines 74-86:
if the trailing cell of row a is not an int the result is true, else if
the trailing cell of row b is not an int the result is false, else the
comparison averageA > averageB. -/
def Less (a b : Row) : Bool :=
  match trailingInt a with
  | none => true
  | some x =>
    match trailingInt b with
    | none => false
    | some y => decide (x > y)

end ByAverageTotalTeamPower

/-- Abbreviation for the sort comparator. -/
abbrev lessRows : Row → Row → Bool := ByAverageTotalTeamPower.Less

/-- One insertion step of insertion sort, kept in reversed order: the
accumulator holds the already sorted prefix reversed, and the new row x
moves past exactly those rows y with lessRows x y, as the swap loop of
insertion sort does in the Go standard library. -/
def insertRowRev (x : Row) : List Row → List Row
  | [] => [x]
  | y :: ys => if lessRows x y then y :: insertRowRev x ys else x :: y :: ys

/-- Tail recursion over the input rows, inserting each into the
reversed accumulator. -/
def sortRowsAux : List Row → List Row → List Row
  | acc, [] => acc
  | acc, r :: rs => sortRowsAux (insertRowRev r acc) rs

/-- Model of sort.Sort(ByAverageTotalTeamPower(cellValues)): insertion
sort by the Less comparator. -/
def sortRows (rows : List Row) : List Row :=
  (sortRowsAux [] rows).reverse

/-! ### Basic facts about the comparator -/

theorem lessRows_of_trailing_none {a : Row} (h : trailingInt a = none) (b : Row) :
    lessRows a b = true := by
  unfold lessRows ByAverageTotalTeamPower.Less
  rw [h]

theorem lessRows_int_none {a b : Row} {n : Int} (ha : trailingInt a = some n)
    (hb : trailingInt b = none) : lessRows a b = false := by
  unfold lessRows ByAverageTotalTeamPower.Less
  rw [ha, hb]

theorem lessRows_int_int {a b : Row} {m n : Int} (ha : trailingInt a = some m)
    (hb : trailingInt b = some n) : lessRows a b = decide (m > n) := by
  unfold lessRows ByAverageTotalTeamPower.Less
  rw [ha, hb]

/-! ### Permutation facts about the sort -/

theorem insertRowRev_perm (x : Row) (l : List Row) :
    List.Perm (insertRowRev x l) (x :: l) := by
  induction l with
  | nil => simp [insertRowRev]
  | cons y ys ih =>
    unfold insertRowRev
    by_cases h : lessRows x y
    · simp only [h, if_true]
      exact (ih.cons y).trans (List.Perm.swap x y ys)
    · rw [Bool.not_eq_true] at h
      simp [h]

theorem sortRowsAux_perm (l : List Row) :
    ∀ acc, List.Perm (sortRowsAux acc l) (acc ++ l) := by
  induction l with
  | nil => intro acc; simp [sortRowsAux]
  | cons r rs ih =>
    intro acc
    unfold sortRowsAux
    refine (ih (insertRowRev r acc)).trans ?_
    refine (((insertRowRev_perm r acc).append_right rs).trans ?_)
    exact List.perm_middle.symm

theorem sortRows_perm (l : List Row) : List.Perm (sortRows l) l := by
  unfold sortRows
  exact (List.reverse_perm _).trans ((sortRowsAux_perm l []).trans (by simp))

theorem mem_sortRows {r : Row} {l : List Row} : r ∈ sortRows l ↔ r ∈ l :=
  (sortRows_perm l).mem_iff

theorem sortRows_length (l : List Row) : (sortRows l).length = l.length :=
  (sortRows_perm l).length_eq

/-! ### Shape of the sorted output

In the reversed accumulator the rows with integer trailing cells form
an ascending-by-trailing-value block, followed by the rows without one
(which the comparator treats as strictly less than everything, so they
move past every row during insertion).  Reversing yields the published
order: non-integer rows first, then the integer rows in descending
trailing order. -/

/-- Every row of the list has an integer trailing cell. -/
def IntRows (l : List Row) : Prop := ∀ r ∈ l, ∃ n, trailingInt r = some n

/-- No row of the list has an integer trailing cell. -/
def NonIntRows (l : List Row) : Prop := ∀ r ∈ l, trailingInt r = none

/-- Trailing value used for ordering statements; integer rows always
match the some branch wherever this is applied. -/
def trailingVal (r : Row) : Int := (trailingInt r).getD 0

theorem insertRowRev_of_none {x : Row} (h : trailingInt x = none) (l : List Row) :
    insertRowRev x l = l ++ [x] := by
  induction l with
  | nil => rfl
  | cons y ys ih =>
    unfold insertRowRev
    rw [lessRows_of_trailing_none h y, if_pos rfl, ih]
    rfl

theorem insertRowRev_append_of_int {x : Row} {n : Int} (hx : trailingInt x = some n)
    {invs : List Row} (hinvs : NonIntRows invs) :
    ∀ ints : List Row, insertRowRev x (ints ++ invs) = insertRowRev x ints ++ invs := by
  intro ints
  induction ints with
  | nil =>
    cases invs with
    | nil => rfl
    | cons y ys =>
      simp only [List.nil_append, insertRowRev]
      rw [lessRows_int_none hx (hinvs y (by simp))]
      rfl
  | cons y ys ih =>
    simp only [List.cons_append, insertRowRev, List.append_eq]
    by_cases h : lessRows x y
    · rw [if_pos h, if_pos h, ih]
      rfl
    · rw [if_neg h, if_neg h]
      rfl

theorem mem_insertRowRev {a x : Row} {l : List Row} :
    a ∈ insertRowRev x l ↔ a = x ∨ a ∈ l := by
  rw [(insertRowRev_perm x l).mem_iff, List.mem_cons]

/-- Inserting an integer row into an ascending integer block keeps it
ascending. -/
theorem insertRowRev_chain {x : Row} {n : Int} (hx : trailingInt x = some n) :
    ∀ ints : List Row, IntRows ints →
      List.Chain' (fun u v => trailingVal u ≤ trailingVal v) ints →
      List.Chain' (fun u v => trailingVal u ≤ trailingVal v) (insertRowRev x ints) := by
  intro ints
  induction ints with
  | nil => intro _ _; simp [insertRowRev]
  | cons y ys ih =>
    intro hint hchain
    obtain ⟨m, hy⟩ := hint y (by simp)
    unfold insertRowRev
    by_cases h : lessRows x y
    · rw [if_pos h]
      rw [List.chain'_cons']
      refine ⟨?_, ih (fun r hr => hint r (by simp [hr])) hchain.tail⟩
      intro z hz
      have hnm : m < n := by
        rw [lessRows_int_int hx hy] at h
        exact of_decide_eq_true h
      cases ys with
      | nil =>
        simp only [insertRowRev, List.head?_cons, Option.mem_def, Option.some.injEq] at hz
        subst hz
        simp [trailingVal, hy, hx, le_of_lt hnm]
      | cons w ws =>
        simp only [insertRowRev] at hz
        by_cases hw : lessRows x w
        · rw [if_pos hw] at hz
          simp only [List.head?_cons, Option.mem_def, Option.some.injEq] at hz
          subst hz
          exact (List.chain'_cons.mp hchain).1
        · rw [if_neg hw] at hz
          simp only [List.head?_cons, Option.mem_def, Option.some.injEq] at hz
          subst hz
          simp [trailingVal, hy, hx, le_of_lt hnm]
    · rw [if_neg h]
      rw [List.chain'_cons]
      refine ⟨?_, hchain⟩
      rw [lessRows_int_int hx hy] at h
      have : ¬ (n > m) := fun hc => h (decide_eq_true hc)
      simp [trailingVal, hy, hx]
      omega

/-- The invariant carried through the insertion loop, phrased on the
reversed accumulator. -/
def RevShape (acc : List Row) : Prop :=
  ∃ ints invs, acc = ints ++ invs ∧ IntRows ints ∧ NonIntRows invs ∧
    List.Chain' (fun u v => trailingVal u ≤ trailingVal v) ints

theorem revShape_insert {acc : List Row} (h : RevShape acc) (x : Row) :
    RevShape (insertRowRev x acc) := by
  obtain ⟨ints, invs, rfl, hint, hinv, hchain⟩ := h
  cases hx : trailingInt x with
  | none =>
    refine ⟨ints, invs ++ [x], by rw [insertRowRev_of_none hx, List.append_assoc], hint, ?_, hchain⟩
    intro r hr
    rcases List.mem_append.mp hr with h1 | h1
    · exact hinv r h1
    · simp only [List.mem_singleton] at h1
      rw [h1, hx]
  | some n =>
    refine ⟨insertRowRev x ints, invs, insertRowRev_append_of_int hx hinv ints, ?_, hinv, ?_⟩
    · intro r hr
      rcases mem_insertRowRev.mp hr with h1 | h1
      · exact ⟨n, h1 ▸ hx⟩
      · exact hint r h1
    · exact insertRowRev_chain hx ints hint hchain

theorem sortRowsAux_shape (l : List Row) :
    ∀ acc, RevShape acc → RevShape (sortRowsAux acc l) := by
  induction l with
  | nil => intro acc h; exact h
  | cons r rs ih => intro acc h; exact ih (insertRowRev r acc) (revShape_insert h r)

/-- The published order of any sorted row list: a block of rows without
an integer trailing cell, then the rows with one, descending in that
value. -/
theorem sortRows_shape (l : List Row) :
    ∃ invs ints, sortRows l = invs ++ ints ∧ NonIntRows invs ∧ IntRows ints ∧
      List.Chain' (fun u v => trailingVal v ≤ trailingVal u) ints := by
  have hbase : RevShape ([] : List Row) := by
    refine ⟨[], [], rfl, ?_, ?_, ?_⟩
    · intro r hr; exact (List.not_mem_nil r hr).elim
    · intro r hr; exact (List.not_mem_nil r hr).elim
    · exact List.chain'_nil
  obtain ⟨ints, invs, heq, hint, hinv, hchain⟩ := sortRowsAux_shape l [] hbase
  refine ⟨invs.reverse, ints.reverse, ?_, ?_, ?_, ?_⟩
  · rw [sortRows, heq, List.reverse_append]
  · intro r hr; exact hinv r (List.mem_reverse.mp hr)
  · intro r hr; exact hint r (List.mem_reverse.mp hr)
  · rw [List.chain'_reverse]
    exact hchain.imp fun a b h => h

/-! ### Data model of the engine

MSFPlayerCharacter carries many JSON fields; the core reads only ID,
Player and Power, so only those are embedded.  String lower-casing is
modelled by String.toLower; every identifier the program compares is
plain ASCII, where Lean lower-casing agrees with strings.ToLower. -/

/-- The fields of MSFPlayerCharacter that the engine reads. -/
structure MSFPlayerCharacter where
  id : String
  player : String
  power : Int
deriving DecidableEq

/-- MSFTeam from src/main.go: name, spreadsheet label, and the ordered
lower-cased character identifiers. -/
structure MSFTeam where
  name : String
  label : String
  characters : List String
deriving DecidableEq

/-- The 26-entry column letter table from src/main.go line 97. -/
def sheetCellIndexToLetter : List String :=
  ["A", "B", "C", "D", "E", "F", "G", "H", "I", "J", "K", "L", "M",
   "N", "O", "P", "Q", "R", "S", "T", "U", "V", "W", "X", "Y", "Z"]

/-! ### The team catalog (src/main.go lines 99-421) -/

def aim : MSFTeam :=
  ⟨"A.I.M.", "AIM",
   ["scientist-supreme", "graviton", "aim-monstruosity", "aim-assualter", "aim-security"]⟩

def asgardian : MSFTeam :=
  ⟨"Asgardian", "ASG", ["hela", "thor", "loki", "sif", "heimdall"]⟩

def avengers : MSFTeam :=
  ⟨"Avengers", "AVG",
   ["captain-america", "captain-marvel", "hulk", "black-widow", "hawkeye"]⟩

def blackOrder : MSFTeam :=
  ⟨"Black Order", "BO",
   ["ebony-maw", "thanos", "cull-obsidian", "corvus-glaive", "proxima-midnight"]⟩

def brawlers : MSFTeam :=
  ⟨"Brawlers", "BRAWL",
   ["america-chavez", "squirrelgirl", "miss-marvel", "psylocke", "wolverine"]⟩

def brotherhoodV2 : MSFTeam :=
  ⟨"Brotherhood V2", "BH2", ["juggernaut", "toad", "blob", "pyro", "magneto"]⟩

def defenders : MSFTeam :=
  ⟨"Defenders", "DEF",
   ["luke-cage", "jessica-jones", "iron-fist", "daredevil", "punisher"]⟩

def defTron : MSFTeam :=
  ⟨"Deftron", "DEFTRON",
   ["ultron", "jessica-jones", "iron-fist", "daredevil", "punisher"]⟩

def fantasticFour : MSFTeam :=
  ⟨"Fantastic Four", "F4",
   ["invisible-woman", "the-thing", "human-torch", "mister-fantastic", "namor"]⟩

def guardians : MSFTeam :=
  ⟨"Guardians of the Galaxy", "GOG",
   ["star-lord", "groot", "drax", "rocket-racoon", "mantis"]⟩

def hydra : MSFTeam :=
  ⟨"Hydra", "HY",
   ["hydra-armored-guard", "hydra-scientist", "hydra-rifle-trooper", "hydra-sniper", "red-skull"]⟩

def hydraV2 : MSFTeam :=
  ⟨"Hydra V2", "HY2",
   ["hydra-grenadier", "winter-soldier", "kingpin", "crossbones"]⟩

def inhumans : MSFTeam :=
  ⟨"Inhumans", "INH", ["quake", "crystal", "karnak", "yoyo", "black-bolt"]⟩

def marauders : MSFTeam :=
  ⟨"Marauders", "MAR",
   ["mister-sinister", "sabretooth", "emmafrost", "mystique", "stryfe"]⟩

def mawTron : MSFTeam :=
  ⟨"Mawtron", "MAWTRON",
   ["ultron", "ebony-maw", "black-bolt", "minn-erva", "thanos"]⟩

def mercenaries : MSFTeam :=
  ⟨"Mercenaries", "MERC",
   ["taskmaster", "mercenary-sniper", "mercenary-riot-guard", "mercenary-lieutenant", "bullseye"]⟩

def powerArmorV2 : MSFTeam :=
  ⟨"Power Armor V2", "PA2",
   ["iron-man", "iron-heart", "war-machine", "falcon", "rescue"]⟩

def shieldCoulson : MSFTeam :=
  ⟨"S.H.I.E.L.D. Coulson", "SHC",
   ["nick-fury", "coulson", "shield-medic", "shield-security", "shield-assault"]⟩

def sinisterSix : MSFTeam :=
  ⟨"Sinister 6", "S6",
   ["rhino", "green-goblin", "shocker", "vulture", "mysterio"]⟩

def supernatural : MSFTeam :=
  ⟨"Supernatural", "SN",
   ["mordo", "ghost-rider", "scarlet-witch", "doctor-strange", "elsa-bloodstone"]⟩

def symbiotes : MSFTeam :=
  ⟨"Symbiotes", "SYM",
   ["spider-man-symbiote", "carnage", "venom", "spider-man", "spider-man-miles"]⟩

def symTech : MSFTeam :=
  ⟨"SymTech", "SYMTECH",
   ["spider-man-symbiote", "carnage", "venom", "scientist-supreme", "shuri"]⟩

def techWing : MSFTeam :=
  ⟨"TechWing", "TECHWING",
   ["ultron", "scientist-supreme", "shuri", "minn-erva", "falcon"]⟩

def ultronsAngels : MSFTeam :=
  ⟨"Ultron's Angels", "ANGELTRON",
   ["ultron", "shuri", "scientist-supreme", "invisible-woman", "minn-erva"]⟩

def wakandans : MSFTeam :=
  ⟨"Wakandans", "WAK",
   ["shuri", "black-panther", "killmonger", "mbaku", "okoye"]⟩

def xForce : MSFTeam :=
  ⟨"X-Force", "XFORCE", ["negasonic", "cable", "deadpool", "domino", "x23"]⟩

def xMen : MSFTeam :=
  ⟨"X-Men", "XMEN", ["wolverine", "colossus", "cyclops", "storm", "phoenix"]⟩

/-- Team list of generateTopWarOffenseTeamsByPlayerReport (line 557). -/
def topWarOffenseTeams : List MSFTeam :=
  [blackOrder, brotherhoodV2, defTron, fantasticFour, hydraV2, inhumans,
   powerArmorV2, supernatural, symbiotes, xForce, xMen]

/-- Team list of generateTopWarDefenseTeamsByPlayerReport (line 563). -/
def topWarDefenseTeams : List MSFTeam :=
  [asgardian, hydra, marauders, mercenaries, shieldCoulson, avengers, brawlers, sinisterSix]

/-- Team list of generateTopWarFlexTeamsByPlayerReport (line 569). -/
def topWarFlexTeams : List MSFTeam :=
  [aim, defenders, guardians, wakandans]

/-- Team list of generateTopU7RaidTeamsByPlayerReport (line 575). -/
def topU7RaidTeams : List MSFTeam :=
  [mawTron, symTech, techWing, ultronsAngels]

/-! ### Roster index

main() groups the fetched records into playerCharactersMap, keyed by
the Player field, each value keeping the records in input order.  The
value for a player p is therefore the input filtered to p, and the key
set is the set of distinct players in input order. -/

/-- The ordered record sequence of one player in playerCharactersMap. -/
def playerCharacters (records : List MSFPlayerCharacter) (p : String) :
    List MSFPlayerCharacter :=
  records.filter (fun c => c.player == p)

/-- Append a player to the first-seen list if not yet present. -/
def addPlayer (acc : List String) (p : String) : List String :=
  if p ∈ acc then acc else acc ++ [p]

/-- The distinct players of the input, in first-seen order: the key set
of playerCharactersMap. -/
def playerList (records : List MSFPlayerCharacter) : List String :=
  records.foldl (fun acc c => addPlayer acc c.player) []

/-! ### Aggregation engine and table builder
(generateAverageTeamPowerByPlayerReport, lines 580-660) -/

/-- Model of strings.ToLower: lower-case every character.  All
identifiers the program compares are ASCII, where per-character
lowering agrees with the Go function; defined over the character list
so that it evaluates by structural recursion. -/
def lowerString (s : String) : String := ⟨s.data.map Char.toLower⟩

/-- The nested loop of lines 589-596: for each team member, add the
power of every record whose lower-cased ID equals that member. -/
def teamTotalPower (team : MSFTeam) (characters : List MSFPlayerCharacter) : Int :=
  team.characters.foldl
    (fun total tc =>
      characters.foldl
        (fun t c => if lowerString c.id == tc then t + c.power else t) total) 0

/-- playerTeamsMap entry of one player: one total per team, in category
team order. -/
def playerTeamPowers (records : List MSFPlayerCharacter) (teams : List MSFTeam)
    (p : String) : List Int :=
  teams.map (fun team => teamTotalPower team (playerCharacters records p))

/-- Header row of lines 608-615: the literal first cell is the string
Player, then the team labels, then Average. -/
def headerRow (teams : List MSFTeam) : Row :=
  Cell.str "Player" :: ((teams.map fun team => Cell.str team.label) ++ [Cell.str "Average"])

/-- Lexicographic comparison of character lists, the order Go uses on
strings (UTF-8 byte order coincides with code point order). -/
def charListLe : List Char → List Char → Bool
  | [], _ => true
  | _ :: _, [] => false
  | c :: cs, d :: ds => if c = d then charListLe cs ds else decide (c < d)

/-- Ascending string comparison for the player key sort. -/
def stringLe (s t : String) : Bool := charListLe s.data t.data

/-- Go sorts strings ascending; insertion used here.  The keys are
distinct (map keys), so the ascending arrangement is unique and any
correct sort produces this list. -/
def insertSortedString (s : String) : List String → List String
  | [] => [s]
  | y :: ys => if stringLe s y then s :: y :: ys else y :: insertSortedString s ys

/-- Model of sort.Strings(playerKeys) at line 623. -/
def sortStrings (l : List String) : List String :=
  l.foldr insertSortedString []

/-- The sorted player keys of the table.  The keys of playerTeamsMap
are inserted inside the loop over teams, so with an empty team list the
map, and hence the key list, stays empty. -/
def tableKeys (records : List MSFPlayerCharacter) (teams : List MSFTeam) : List String :=
  match teams with
  | [] => []
  | _ :: _ => sortStrings (playerList records)

/-- One data row, as filled in by the column loop of lines 625-648:
player name, per-team totals, then the truncating-division average
totalPower / len(playerTeamsMap[player]).  Go division on int truncates
toward zero, which is Int.tdiv. -/
def dataRow (records : List MSFPlayerCharacter) (teams : List MSFTeam) (p : String) : Row :=
  Cell.str p ::
    (((playerTeamPowers records teams p).map Cell.int) ++
      [Cell.int (Int.tdiv (playerTeamPowers records teams p).sum
        ((playerTeamPowers records teams p).length : Int))])

/-- cellValues just before the sort at line 650. -/
def cellValues (records : List MSFPlayerCharacter) (teams : List MSFTeam) : List Row :=
  headerRow teams :: (tableKeys records teams).map (dataRow records teams)

/-- The published table: cellValues after sort.Sort. -/
def generateTable (records : List MSFPlayerCharacter) (teams : List MSFTeam) : List Row :=
  sortRows (cellValues records teams)

/-- The range address computation of line 657, as a function of the
column and row counts: the fixed 26-entry letter array is indexed at
numCols - 1, and an out-of-range index is a panic, modelled as none. -/
def computeWriteRange (sheetName : String) (numCols numRows : Nat) : Option String :=
  match sheetCellIndexToLetter.get? (numCols - 1) with
  | some letter => some (sheetName ++ "!A1:" ++ letter ++ toString numRows)
  | none => none

/-- generateAverageTeamPowerByPlayerReport: the sorted table plus the
write range derived from len(cellValues[0]) and len(cellValues). -/
def generateAverageTeamPowerByPlayerReport (records : List MSFPlayerCharacter)
    (teams : List MSFTeam) (sheetName : String) : Option (String × List Row) :=
  (computeWriteRange sheetName ((generateTable records teams).headD []).length
      (generateTable records teams).length).map
    (fun wr => (wr, generateTable records teams))

/-! ### Facts about header and data rows -/

/-- The average cell value of one data row. -/
def rowAverage (records : List MSFPlayerCharacter) (teams : List MSFTeam) (p : String) : Int :=
  Int.tdiv (playerTeamPowers records teams p).sum
    ((playerTeamPowers records teams p).length : Int)

theorem dataRow_eq (records : List MSFPlayerCharacter) (teams : List MSFTeam) (p : String) :
    dataRow records teams p =
      Cell.str p :: (((playerTeamPowers records teams p).map Cell.int) ++
        [Cell.int (rowAverage records teams p)]) := rfl

theorem headerRow_getLast? (teams : List MSFTeam) :
    (headerRow teams).getLast? = some (Cell.str "Average") := by
  show ((Cell.str "Player" :: teams.map fun team => Cell.str team.label) ++
      [Cell.str "Average"]).getLast? = _
  exact List.getLast?_concat _

theorem trailingInt_headerRow (teams : List MSFTeam) :
    trailingInt (headerRow teams) = none := by
  unfold trailingInt
  rw [headerRow_getLast?]

theorem dataRow_getLast? (records : List MSFPlayerCharacter) (teams : List MSFTeam)
    (p : String) :
    (dataRow records teams p).getLast? = some (Cell.int (rowAverage records teams p)) := by
  show ((Cell.str p :: (playerTeamPowers records teams p).map Cell.int) ++
      [Cell.int (rowAverage records teams p)]).getLast? = _
  exact List.getLast?_concat _

theorem trailingInt_dataRow (records : List MSFPlayerCharacter) (teams : List MSFTeam)
    (p : String) :
    trailingInt (dataRow records teams p) = some (rowAverage records teams p) := by
  unfold trailingInt
  rw [dataRow_getLast?]

theorem playerTeamPowers_length (records : List MSFPlayerCharacter) (teams : List MSFTeam)
    (p : String) : (playerTeamPowers records teams p).length = teams.length :=
  List.length_map _ _

theorem headerRow_length (teams : List MSFTeam) :
    (headerRow teams).length = teams.length + 2 := by
  simp [headerRow]

theorem dataRow_length (records : List MSFPlayerCharacter) (teams : List MSFTeam)
    (p : String) : (dataRow records teams p).length = teams.length + 2 := by
  simp [dataRow, playerTeamPowers]

theorem mem_cellValues {row : Row} {records : List MSFPlayerCharacter}
    {teams : List MSFTeam} :
    row ∈ cellValues records teams ↔
      row = headerRow teams ∨ ∃ p ∈ tableKeys records teams, row = dataRow records teams p := by
  simp only [cellValues, List.mem_cons, List.mem_map]
  constructor
  · rintro (h | ⟨p, hp, hrow⟩)
    · exact Or.inl h
    · exact Or.inr ⟨p, hp, hrow.symm⟩
  · rintro (h | ⟨p, hp, hrow⟩)
    · exact Or.inl h
    · exact Or.inr ⟨p, hp, hrow.symm⟩

theorem mem_generateTable {row : Row} {records : List MSFPlayerCharacter}
    {teams : List MSFTeam} :
    row ∈ generateTable records teams ↔
      row = headerRow teams ∨ ∃ p ∈ tableKeys records teams, row = dataRow records teams p := by
  rw [generateTable, mem_sortRows, mem_cellValues]

/-- The header is the only row of cellValues without an integer
trailing cell, and it stays in front after the sort. -/
theorem generateTable_head (records : List MSFPlayerCharacter) (teams : List MSFTeam) :
    (generateTable records teams).head? = some (headerRow teams) := by
  obtain ⟨invs, ints, heq, hinv, hint, _⟩ := sortRows_shape (cellValues records teams)
  have hmem : headerRow teams ∈ generateTable records teams :=
    mem_generateTable.mpr (Or.inl rfl)
  have hnotint : headerRow teams ∉ ints := by
    intro h
    obtain ⟨n, hn⟩ := hint _ h
    rw [trailingInt_headerRow] at hn
    cases hn
  have hin : headerRow teams ∈ invs := by
    rw [generateTable, heq] at hmem
    rcases List.mem_append.mp hmem with h | h
    · exact h
    · exact absurd h hnotint
  cases invs with
  | nil => exact absurd hin (List.not_mem_nil _)
  | cons h0 t =>
    have h0none : trailingInt h0 = none := hinv h0 (by simp)
    have h0mem : h0 ∈ generateTable records teams := by
      rw [generateTable, heq]
      exact List.mem_append_left _ (by simp)
    have h0eq : h0 = headerRow teams := by
      rcases mem_generateTable.mp h0mem with h | ⟨p, _, hrow⟩
      · exact h
      · rw [hrow, trailingInt_dataRow] at h0none
        cases h0none
    rw [generateTable, heq, h0eq]
    rfl

/-! ### Claim C2: the published table is descending in the trailing
average column -/

/-- Rows without an integer trailing cell are vacuously related by the
descending condition of claim C2. -/
theorem chain'_of_nonInt {l : List Row} (h : NonIntRows l) :
    List.Chain'
      (fun u v => ∀ x y : Int, trailingInt u = some x → trailingInt v = some y → y ≤ x) l := by
  refine List.Pairwise.chain' (List.pairwise_of_forall_mem_list ?_)
  intro a ha b _ x y hx _
  rw [h a ha] at hx
  cases hx

/-- C2: for every input record list and every category, adjacent rows
of the final table whose trailing cells are integers are in descending
order of that value after the ranking sort. -/
theorem sorted_by_average_descending (records : List MSFPlayerCharacter)
    (teams : List MSFTeam) :
    List.Chain'
      (fun u v => ∀ x y : Int, trailingInt u = some x → trailingInt v = some y → y ≤ x)
      (generateTable records teams) := by
  obtain ⟨invs, ints, heq, hinv, hint, hchain⟩ := sortRows_shape (cellValues records teams)
  rw [generateTable, heq, List.chain'_append]
  refine ⟨chain'_of_nonInt hinv, ?_, ?_⟩
  · refine hchain.imp ?_
    intro a b hab x y hx hy
    have ha : trailingVal a = x := by rw [trailingVal, hx]; rfl
    have hb : trailingVal b = y := by rw [trailingVal, hy]; rfl
    rw [ha, hb] at hab
    exact hab
  · intro x hx y _
    have hxm : x ∈ invs := List.mem_of_getLast?_eq_some hx
    intro a b ha _
    rw [hinv x hxm] at ha
    cases ha

/-! ### Claims C1, C7, C10 -/

/-- C1 (amended): a row whose trailing cell is not an integer is
ordered strictly less than any row with an integer trailing cell by the
comparator, and sort.Sort places comparator-lesser rows first, so the
sorted sequence is a block of rows without integer trailing cells
followed by the rows with them: the invalid row is placed toward the
beginning, before every row with an integer trailing cell. -/
theorem invalid_trailing_row_sorts_first (rows : List Row) (a b : Row) (n : Int)
    (ha : trailingInt a = none) (hb : trailingInt b = some n) :
    (lessRows a b = true ∧ lessRows b a = false) ∧
    ∃ pre post, sortRows rows = pre ++ post ∧ NonIntRows pre ∧ IntRows post := by
  refine ⟨⟨lessRows_of_trailing_none ha b, lessRows_int_none hb ha⟩, ?_⟩
  obtain ⟨invs, ints, heq, hinv, hint, _⟩ := sortRows_shape rows
  exact ⟨invs, ints, heq, hinv, hint⟩

/-- C1 witness: the amended statement applied at a concrete two-row
input. -/
theorem invalid_trailing_row_sorts_first_witness :
    trailingInt [Cell.str "bob", Cell.str "n-a"] = none ∧
    trailingInt [Cell.str "alice", Cell.int 5] = some 5 ∧
    ((lessRows [Cell.str "bob", Cell.str "n-a"] [Cell.str "alice", Cell.int 5] = true ∧
      lessRows [Cell.str "alice", Cell.int 5] [Cell.str "bob", Cell.str "n-a"] = false) ∧
     ∃ pre post,
       sortRows [[Cell.str "alice", Cell.int 5], [Cell.str "bob", Cell.str "n-a"]] =
         pre ++ post ∧ NonIntRows pre ∧ IntRows post) :=
  ⟨rfl, rfl,
   invalid_trailing_row_sorts_first
     [[Cell.str "alice", Cell.int 5], [Cell.str "bob", Cell.str "n-a"]]
     [Cell.str "bob", Cell.str "n-a"] [Cell.str "alice", Cell.int 5] 5 rfl rfl⟩

/-- C1 counterexample: with one valid-integer row and one invalid row,
the sort places the invalid row at index 0, before the row with the
integer trailing cell, not after it as the claim states. -/
theorem invalid_trailing_row_not_last :
    sortRows [[Cell.str "alice", Cell.int 5], [Cell.str "bob", Cell.str "n-a"]] =
      [[Cell.str "bob", Cell.str "n-a"], [Cell.str "alice", Cell.int 5]] ∧
    trailingInt [Cell.str "bob", Cell.str "n-a"] = none ∧
    trailingInt [Cell.str "alice", Cell.int 5] = some 5 :=
  ⟨rfl, rfl, rfl⟩

/-- C7 counterexample: for the configured Flex category the first row
of the published table is the header, whose first cell is the string
Player, not the string Owner required by the claim. -/
theorem header_first_cell_not_owner :
    (generateTable [] topWarFlexTeams).head? = some (headerRow topWarFlexTeams) ∧
    headerRow topWarFlexTeams ≠
      Cell.str "Owner" ::
        ((topWarFlexTeams.map fun team => Cell.str team.label) ++ [Cell.str "Average"]) ∧
    (headerRow topWarFlexTeams).head? = some (Cell.str "Player") :=
  ⟨generateTable_head [] topWarFlexTeams, by decide, rfl⟩

/-- C7 (amended): for every category the header row of the produced
table is exactly the cell Player, then the displayLabel of each team in
category order, then the cell Average, and it is the first row of the
published table. -/
theorem header_row_content (records : List MSFPlayerCharacter) (teams : List MSFTeam) :
    (generateTable records teams).head? =
      some (Cell.str "Player" ::
        ((teams.map fun team => Cell.str team.label) ++ [Cell.str "Average"])) :=
  generateTable_head records teams

/-- C10: the header row is part of the slice handed to the ranking
sort, its trailing cell is the non-integer string Average, the
comparator orders it before every other row, and it is therefore at
index 0 of the published table for every input. -/
theorem header_sorts_first (records : List MSFPlayerCharacter) (teams : List MSFTeam) :
    headerRow teams ∈ cellValues records teams ∧
    (headerRow teams).getLast? = some (Cell.str "Average") ∧
    trailingInt (headerRow teams) = none ∧
    (∀ row : Row, lessRows (headerRow teams) row = true) ∧
    (generateTable records teams).head? = some (headerRow teams) :=
  ⟨by simp [cellValues], headerRow_getLast? teams, trailingInt_headerRow teams,
   fun row => lessRows_of_trailing_none (trailingInt_headerRow teams) row,
   generateTable_head records teams⟩

/-! ### Claim C3: the trailing cell is the truncating average of the
per-team totals -/

/-- Integer content of a cell, zero for strings; applied only to cells
known to hold ints. -/
def cellIntVal : Cell → Int
  | Cell.int n => n
  | Cell.str _ => 0

/-- Sum of the per-team total cells of a row: everything strictly
between the owner cell and the trailing average cell. -/
def middleSum (r : Row) : Int := (((r.drop 1).dropLast).map cellIntVal).sum

theorem middleSum_dataRow (records : List MSFPlayerCharacter) (teams : List MSFTeam)
    (p : String) :
    middleSum (dataRow records teams p) = (playerTeamPowers records teams p).sum := by
  unfold middleSum
  rw [dataRow_eq]
  simp only [List.drop_succ_cons, List.drop_zero, List.dropLast_concat, List.map_map]
  have hcomp : cellIntVal ∘ Cell.int = id := rfl
  rw [hcomp, List.map_id]

theorem inner_power_foldl_nonneg {chars : List MSFPlayerCharacter}
    (h : ∀ c ∈ chars, 0 ≤ c.power) (tc : String) :
    ∀ init : Int, 0 ≤ init →
      0 ≤ chars.foldl (fun t c => if lowerString c.id == tc then t + c.power else t) init := by
  induction chars with
  | nil => intro init hinit; exact hinit
  | cons c cs ih =>
    intro init hinit
    simp only [List.foldl_cons]
    refine ih (fun d hd => h d (by simp [hd])) _ ?_
    by_cases hc : lowerString c.id == tc
    · rw [if_pos hc]
      have := h c (by simp)
      omega
    · rw [if_neg hc]
      exact hinit

theorem teamTotalPower_nonneg {chars : List MSFPlayerCharacter}
    (h : ∀ c ∈ chars, 0 ≤ c.power) (team : MSFTeam) :
    0 ≤ teamTotalPower team chars := by
  unfold teamTotalPower
  have : ∀ (members : List String) (init : Int), 0 ≤ init →
      0 ≤ members.foldl
        (fun total tc => chars.foldl
          (fun t c => if lowerString c.id == tc then t + c.power else t) total) init := by
    intro members
    induction members with
    | nil => intro init hinit; exact hinit
    | cons tc tcs ih =>
      intro init hinit
      simp only [List.foldl_cons]
      exact ih _ (inner_power_foldl_nonneg h tc init hinit)
  exact this team.characters 0 le_rfl

theorem playerCharacters_power_nonneg {records : List MSFPlayerCharacter}
    (h : ∀ c ∈ records, 0 ≤ c.power) (p : String) :
    ∀ c ∈ playerCharacters records p, 0 ≤ c.power := by
  intro c hc
  exact h c (List.mem_filter.mp hc).1

theorem playerTeamPowers_sum_nonneg {records : List MSFPlayerCharacter}
    (h : ∀ c ∈ records, 0 ≤ c.power) (teams : List MSFTeam) (p : String) :
    0 ≤ (playerTeamPowers records teams p).sum := by
  refine List.sum_nonneg ?_
  intro x hx
  obtain ⟨team, _, rfl⟩ := List.mem_map.mp hx
  exact teamTotalPower_nonneg (playerCharacters_power_nonneg h p) team

/-- C3: when powers are non-negative (as the record source guarantees)
and the category has at least one team, the trailing cell of every
owner row equals the floor of the sum of that row's per-team total
cells divided by the team count; the Go code computes it with
truncating division, which agrees with floor division on non-negative
operands. -/
theorem average_is_floor_of_sum (records : List MSFPlayerCharacter) (teams : List MSFTeam)
    (_hteams : teams ≠ []) (hpow : ∀ c ∈ records, 0 ≤ c.power) :
    ∀ row ∈ generateTable records teams, row ≠ headerRow teams →
      row.getLast? = some (Cell.int (Int.fdiv (middleSum row) (teams.length : Int))) := by
  intro row hrow hne
  rcases mem_generateTable.mp hrow with h | ⟨p, _, rfl⟩
  · exact absurd h hne
  · rw [dataRow_getLast?, middleSum_dataRow]
    have hsum : 0 ≤ (playerTeamPowers records teams p).sum :=
      playerTeamPowers_sum_nonneg hpow teams p
    have hlen : (0 : Int) ≤ (teams.length : Int) := Int.ofNat_nonneg _
    rw [Int.fdiv_eq_tdiv hsum hlen]
    rw [rowAverage, playerTeamPowers_length]

/-- Input for the C3 witness: one owner with two single-member teams,
totals 51 and 30, so the average is the truncation of 81 / 2. -/
def c3Records : List MSFPlayerCharacter := [⟨"a1", "carl", 51⟩, ⟨"b1", "carl", 30⟩]

/-- Teams for the C3 witness. -/
def c3Teams : List MSFTeam := [⟨"T1", "T1", ["a1"]⟩, ⟨"T2", "T2", ["b1"]⟩]

/-- C3 witness: the theorem applied to the carl row of the concrete
table; the trailing cell is floor(81 / 2) = 40. -/
theorem average_is_floor_of_sum_witness :
    c3Teams ≠ [] ∧ (∀ c ∈ c3Records, 0 ≤ c.power) ∧
    dataRow c3Records c3Teams "carl" ∈ generateTable c3Records c3Teams ∧
    dataRow c3Records c3Teams "carl" ≠ headerRow c3Teams ∧
    (dataRow c3Records c3Teams "carl").getLast? =
      some (Cell.int (Int.fdiv (middleSum (dataRow c3Records c3Teams "carl"))
        ((c3Teams.length : Int)))) :=
  ⟨by decide, by decide, by decide, by decide,
   average_is_floor_of_sum c3Records c3Teams (by decide) (by decide) _ (by decide) (by decide)⟩

/-! ### Claim C4: table dimensions and owner coverage -/

theorem mem_foldl_addPlayer (l : List MSFPlayerCharacter) :
    ∀ (acc : List String) (p : String),
      p ∈ l.foldl (fun acc c => addPlayer acc c.player) acc ↔
        p ∈ acc ∨ p ∈ l.map (fun c => c.player) := by
  induction l with
  | nil => intro acc p; simp
  | cons c cs ih =>
    intro acc p
    simp only [List.foldl_cons, List.map_cons, List.mem_cons]
    rw [ih]
    unfold addPlayer
    by_cases h : c.player ∈ acc
    · rw [if_pos h]
      constructor
      · rintro (h1 | h1)
        · exact Or.inl h1
        · exact Or.inr (Or.inr h1)
      · rintro (h1 | h1 | h1)
        · exact Or.inl h1
        · exact Or.inl (h1 ▸ h)
        · exact Or.inr h1
    · rw [if_neg h]
      constructor
      · rintro (h1 | h1)
        · rcases List.mem_append.mp h1 with h2 | h2
          · exact Or.inl h2
          · exact Or.inr (Or.inl (List.mem_singleton.mp h2))
        · exact Or.inr (Or.inr h1)
      · rintro (h1 | h1 | h1)
        · exact Or.inl (List.mem_append_left _ h1)
        · exact Or.inl (List.mem_append_right _ (h1 ▸ List.mem_singleton_self _))
        · exact Or.inr h1

theorem nodup_foldl_addPlayer (l : List MSFPlayerCharacter) :
    ∀ acc : List String, acc.Nodup →
      (l.foldl (fun acc c => addPlayer acc c.player) acc).Nodup := by
  induction l with
  | nil => intro acc h; exact h
  | cons c cs ih =>
    intro acc h
    simp only [List.foldl_cons]
    refine ih _ ?_
    unfold addPlayer
    by_cases hc : c.player ∈ acc
    · rw [if_pos hc]; exact h
    · rw [if_neg hc]
      exact List.Nodup.append h (List.nodup_singleton _)
        (List.disjoint_singleton.mpr hc)

theorem playerList_nodup (records : List MSFPlayerCharacter) :
    (playerList records).Nodup :=
  nodup_foldl_addPlayer records [] List.nodup_nil

theorem mem_playerList (records : List MSFPlayerCharacter) (p : String) :
    p ∈ playerList records ↔ p ∈ records.map (fun c => c.player) := by
  rw [playerList, mem_foldl_addPlayer]
  simp

theorem insertSortedString_perm (s : String) (l : List String) :
    List.Perm (insertSortedString s l) (s :: l) := by
  induction l with
  | nil => simp [insertSortedString]
  | cons y ys ih =>
    unfold insertSortedString
    by_cases h : stringLe s y
    · rw [if_pos h]
    · rw [if_neg h]
      exact (ih.cons y).trans (List.Perm.swap s y ys)

theorem sortStrings_perm (l : List String) : List.Perm (sortStrings l) l := by
  unfold sortStrings
  induction l with
  | nil => exact List.Perm.refl _
  | cons s ss ih =>
    simp only [List.foldr_cons]
    exact (insertSortedString_perm s _).trans (ih.cons s)

theorem tableKeys_perm (records : List MSFPlayerCharacter) {teams : List MSFTeam}
    (h : teams ≠ []) : List.Perm (tableKeys records teams) (playerList records) := by
  cases teams with
  | nil => exact absurd rfl h
  | cons t ts => exact sortStrings_perm (playerList records)

/-- C4: for a category with at least one team, the published table has
one row per distinct owner of the input plus the header, every row has
exactly teamCount + 2 cells, the owner list is exactly the distinct
players of the input, and every owner (with or without matching items)
contributes a row whose first cell names that owner. -/
theorem table_row_and_column_counts (records : List MSFPlayerCharacter)
    (teams : List MSFTeam) (h : teams ≠ []) :
    (generateTable records teams).length = (playerList records).length + 1 ∧
    (playerList records).Nodup ∧
    (∀ p, p ∈ playerList records ↔ p ∈ records.map (fun c => c.player)) ∧
    (∀ row ∈ generateTable records teams, row.length = teams.length + 2) ∧
    (∀ p ∈ playerList records, ∃ row ∈ generateTable records teams,
        row.head? = some (Cell.str p)) := by
  refine ⟨?_, playerList_nodup records, fun p => mem_playerList records p, ?_, ?_⟩
  · rw [generateTable, sortRows_length, cellValues]
    simp [(tableKeys_perm records h).length_eq]
  · intro row hrow
    rcases mem_generateTable.mp hrow with rfl | ⟨p, _, rfl⟩
    · exact headerRow_length teams
    · exact dataRow_length records teams p
  · intro p hp
    have hk : p ∈ tableKeys records teams := (tableKeys_perm records h).mem_iff.mpr hp
    exact ⟨dataRow records teams p, mem_generateTable.mpr (Or.inr ⟨p, hk, rfl⟩), rfl⟩

/-- Records for the C4 witness: ann owns nothing matching the team but
must still get a row. -/
def c4Records : List MSFPlayerCharacter := [⟨"hulk", "bob", 100⟩, ⟨"x", "ann", 7⟩]

/-- Teams for the C4 witness. -/
def c4Teams : List MSFTeam := [⟨"Hulk Team", "HLK", ["hulk"]⟩]

/-- C4 witness: the theorem applied to the concrete two-owner input,
including the row of the zero-match owner ann. -/
theorem table_row_and_column_counts_witness :
    c4Teams ≠ [] ∧
    (generateTable c4Records c4Teams).length = (playerList c4Records).length + 1 ∧
    (∀ row ∈ generateTable c4Records c4Teams, row.length = c4Teams.length + 2) ∧
    "ann" ∈ playerList c4Records ∧
    (∃ row ∈ generateTable c4Records c4Teams, row.head? = some (Cell.str "ann")) :=
  ⟨by decide,
   (table_row_and_column_counts c4Records c4Teams (by decide)).1,
   (table_row_and_column_counts c4Records c4Teams (by decide)).2.2.2.1,
   by decide,
   (table_row_and_column_counts c4Records c4Teams (by decide)).2.2.2.2 "ann" (by decide)⟩

/-! ### Claim C5: the per-team total is the sum over matching records -/

/-- Sum of powers of the records whose lower-cased ID equals one fixed
member identifier. -/
def charSum (tc : String) (chars : List MSFPlayerCharacter) : Int :=
  ((chars.filter (fun c => lowerString c.id == tc)).map (fun c => c.power)).sum

theorem charSum_cons (tc : String) (c : MSFPlayerCharacter) (cs : List MSFPlayerCharacter) :
    charSum tc (c :: cs) =
      (if lowerString c.id == tc then c.power else 0) + charSum tc cs := by
  unfold charSum
  rw [List.filter_cons]
  by_cases h : lowerString c.id == tc
  · simp [h]
  · simp [h]

theorem inner_power_foldl_eq (tc : String) (chars : List MSFPlayerCharacter) :
    ∀ init : Int,
      chars.foldl (fun t c => if lowerString c.id == tc then t + c.power else t) init =
        init + charSum tc chars := by
  induction chars with
  | nil => intro init; simp [charSum]
  | cons c cs ih =>
    intro init
    simp only [List.foldl_cons]
    rw [ih, charSum_cons]
    by_cases h : lowerString c.id == tc
    · rw [if_pos h, if_pos h]
      omega
    · rw [if_neg h, if_neg h]
      omega

theorem teamTotalPower_eq_sum_over_members (team : MSFTeam)
    (chars : List MSFPlayerCharacter) :
    teamTotalPower team chars =
      (team.characters.map (fun tc => charSum tc chars)).sum := by
  unfold teamTotalPower
  have : ∀ (members : List String) (init : Int),
      members.foldl
        (fun total tc => chars.foldl
          (fun t c => if lowerString c.id == tc then t + c.power else t) total) init =
        init + (members.map (fun tc => charSum tc chars)).sum := by
    intro members
    induction members with
    | nil => intro init; simp
    | cons tc tcs ih =>
      intro init
      simp only [List.foldl_cons, List.map_cons, List.sum_cons]
      rw [ih, inner_power_foldl_eq]
      omega
  rw [this team.characters 0, Int.zero_add]

theorem sum_map_if_beq (s : String) (v : Int) :
    ∀ members : List String, members.Nodup →
      (members.map (fun tc => if s == tc then v else 0)).sum =
        if members.contains s then v else 0 := by
  intro members
  induction members with
  | nil => intro _; simp
  | cons tc rest ih =>
    intro hnd
    simp only [List.map_cons, List.sum_cons, List.contains_cons]
    rw [ih hnd.of_cons]
    by_cases h : s == tc
    · have hs : s = tc := eq_of_beq h
      have hrest : rest.contains s = false := by
        rw [Bool.eq_false_iff]
        intro hc
        exact (List.nodup_cons.mp hnd).1 (hs ▸ List.mem_of_elem_eq_true hc)
      rw [if_pos h, hrest, h]
      simp
    · rw [if_neg h]
      rw [Bool.eq_false_iff.mpr h]
      simp

theorem members_sum_eq_filter_sum (members : List String) (hnd : members.Nodup) :
    ∀ chars : List MSFPlayerCharacter,
      (members.map (fun tc => charSum tc chars)).sum =
        ((chars.filter (fun c => members.contains (lowerString c.id))).map
          (fun c => c.power)).sum := by
  intro chars
  induction chars with
  | nil => simp [charSum]
  | cons c cs ih =>
    have hstep : (members.map (fun tc => charSum tc (c :: cs))).sum =
        (members.map (fun tc => if lowerString c.id == tc then c.power else 0)).sum +
          (members.map (fun tc => charSum tc cs)).sum := by
      rw [← List.sum_map_add]
      congr 1
      refine List.map_congr_left ?_
      intro tc _
      exact charSum_cons tc c cs
    rw [hstep, ih, sum_map_if_beq (lowerString c.id) c.power members hnd,
      List.filter_cons]
    cases hb : members.contains (lowerString c.id) with
    | false => simp [hb]
    | true => simp [hb]

/-- C5: the per-team total of an owner is exactly the sum of power over
the records of that owner whose lower-cased itemID occurs among the
(pre-lower-cased) memberIDs of the team — for teams without duplicate
member entries, as in the whole catalog.  Matching through lowerString
makes it case-insensitive, and because the total of each team is
computed independently from the same record list, a record matching the
member lists of two teams contributes to both totals. -/
theorem teamTotalPower_eq_matching_sum (team : MSFTeam)
    (chars : List MSFPlayerCharacter) (h : team.characters.Nodup) :
    teamTotalPower team chars =
      ((chars.filter (fun c => team.characters.contains (lowerString c.id))).map
        (fun c => c.power)).sum := by
  rw [teamTotalPower_eq_sum_over_members]
  exact members_sum_eq_filter_sum team.characters h chars

/-- C5 witness: the catalog team Asgardian and one record with the
mixed-case ID Thor, counted for the member thor. -/
theorem teamTotalPower_eq_matching_sum_witness :
    asgardian.characters.Nodup ∧
    teamTotalPower asgardian [⟨"Thor", "alice", 77⟩] =
      ((([⟨"Thor", "alice", 77⟩] : List MSFPlayerCharacter).filter
        (fun c => asgardian.characters.contains (lowerString c.id))).map
          (fun c => c.power)).sum ∧
    teamTotalPower asgardian [⟨"Thor", "alice", 77⟩] = 77 :=
  ⟨by decide,
   teamTotalPower_eq_matching_sum asgardian [⟨"Thor", "alice", 77⟩] (by decide),
   by decide⟩

/-! ### Claims C8 and C9: the range address -/

/-- Spec-side description of the column letter: the 1-based alphabet
letter (A = 1 ... Z = 26) for a column count, built by character
arithmetic rather than by the array lookup of the source. -/
def specColumnLetter (c : Nat) : String := String.singleton (Char.ofNat (64 + c))

/-- C8: for a column count between 1 and 26 the range address is the
category name, the fixed A1 anchor, the 1-based column letter of the
column count, and the row count. -/
theorem computeWriteRange_format (sheetName : String) (c r : Nat)
    (h1 : 1 ≤ c) (h2 : c ≤ 26) :
    computeWriteRange sheetName c r =
      some (sheetName ++ "!A1:" ++ specColumnLetter c ++ toString r) := by
  interval_cases c <;> rfl

/-- C8 witness: scenario C of the specification, a category named
Offense with 7 columns and 5 rows. -/
theorem computeWriteRange_format_witness :
    1 ≤ 7 ∧ 7 ≤ 26 ∧ computeWriteRange "Offense" 7 5 = some "Offense!A1:G5" :=
  ⟨by decide, by decide, by
    rw [computeWriteRange_format "Offense" 7 5 (by decide) (by decide)]
    rfl⟩

theorem generateTable_headD (records : List MSFPlayerCharacter) (teams : List MSFTeam) :
    (generateTable records teams).headD [] = headerRow teams := by
  have h := generateTable_head records teams
  cases hgen : generateTable records teams with
  | nil => rw [hgen] at h; cases h
  | cons a t =>
    rw [hgen] at h
    simp only [List.head?_cons, Option.some.injEq] at h
    rw [h]
    rfl

theorem generateReport_isSome (records : List MSFPlayerCharacter) (teams : List MSFTeam)
    (sheetName : String) (h : teams.length + 1 < 26) :
    (generateAverageTeamPowerByPlayerReport records teams sheetName).isSome = true := by
  unfold generateAverageTeamPowerByPlayerReport
  rw [Option.isSome_map']
  unfold computeWriteRange
  rw [generateTable_headD, headerRow_length]
  cases hg : sheetCellIndexToLetter.get? (teams.length + 2 - 1) with
  | none =>
    have hle := List.get?_eq_none.mp hg
    have hlen : sheetCellIndexToLetter.length = 26 := rfl
    omega
  | some letter => rfl

/-- C9: each of the four configured categories keeps the column count
teamCount + 2 within the 26-letter table (Offense is largest with 11
teams, 13 columns), so the range computation of every call site
succeeds: the out-of-range branch of the letter lookup is unreachable
for every input record list. -/
theorem configured_categories_in_column_range (records : List MSFPlayerCharacter) :
    (topWarOffenseTeams.length + 2 ≤ 26 ∧
      (generateAverageTeamPowerByPlayerReport records topWarOffenseTeams
        "Offense").isSome = true) ∧
    (topWarDefenseTeams.length + 2 ≤ 26 ∧
      (generateAverageTeamPowerByPlayerReport records topWarDefenseTeams
        "Defense").isSome = true) ∧
    (topWarFlexTeams.length + 2 ≤ 26 ∧
      (generateAverageTeamPowerByPlayerReport records topWarFlexTeams
        "Flex").isSome = true) ∧
    (topU7RaidTeams.length + 2 ≤ 26 ∧
      (generateAverageTeamPowerByPlayerReport records topU7RaidTeams
        "U7").isSome = true) :=
  ⟨⟨by decide, generateReport_isSome records topWarOffenseTeams "Offense" (by decide)⟩,
   ⟨by decide, generateReport_isSome records topWarDefenseTeams "Defense" (by decide)⟩,
   ⟨by decide, generateReport_isSome records topWarFlexTeams "Flex" (by decide)⟩,
   ⟨by decide, generateReport_isSome records topU7RaidTeams "U7" (by decide)⟩⟩
